import Mathlib

/-
Formal model of the perfect-decimal range-verification engine.

Sources modelled:
  - the worker file (function `verifyChunk`): per-index value reconstruction,
    round-trip equivalence check, fail-fast error reporting, batched progress
    writes into a shared Int32Array slot;
  - `src/__util__/safe-decimal-validate.js` (function `verifyRangeParallel`):
    the range size `totalNumbers`, the chunk partition, and the final
    success report.

Modelling conventions.  JavaScript numbers are modelled as exact rationals.
Every numeric quantity the program manipulates on its success paths (loop
counters below 2^53, integer parts below 2^31, decimal fractions with
denominator 10^dp) is small enough that the double-precision operations
involved (loop increment, `%`, comparison, `Math.floor` of a quotient whose
numerator and denominator are exact) agree with exact rational arithmetic,
so the rational model is faithful there; rounding of the reconstructed value
itself is exactly what the program probes and is abstracted behind the
`Codec` parameters below.  The two genuinely integer-truncating platform
operations are modelled explicitly:
  - `x | 0` truncates toward zero and wraps to signed 32 bits (`jsOrZero`);
  - a store into an `Int32Array` cell truncates toward zero and wraps to
    signed 32 bits (`toInt32` composed with `jsTrunc`).
The host primitives `Number.prototype.toFixed` and the
`JSON.parse(JSON.stringify(x))` transport — platform functions, not code of
this repository — are abstract parameters gathered in `Codec`; `exactCodec`
instantiates them with the ideal lossless behaviour on grid values.
-/

/-- Two's-complement wrap of an integer into the signed 32-bit range, as
performed by the JavaScript ToInt32 conversion (used by the `| 0` idiom and
by stores into an `Int32Array`). -/
def toInt32 (n : ℤ) : ℤ :=
  (n + 2 ^ 31) % 2 ^ 32 - 2 ^ 31

/-- Truncation of a rational toward zero, as the JavaScript ToInt32
conversion truncates its numeric argument before wrapping. -/
def jsTrunc (q : ℚ) : ℤ :=
  if q < 0 then -⌊-q⌋ else ⌊q⌋

/-- The worker expression `(x) | 0`: truncate toward zero, then wrap to
signed 32 bits. -/
def jsOrZero (q : ℚ) : ℤ :=
  toInt32 (jsTrunc q)

/-- Constant `MAX_INTEGER = 1e9` of safe-decimal-validate.js. -/
def MAX_INTEGER : ℕ := 10 ^ 9

/-- Constant `DECIMAL_PLACES = 6` of safe-decimal-validate.js. -/
def DECIMAL_PLACES : ℕ := 6

/-- Worker constant `batchSize = 10000000` of `verifyChunk`. -/
def batchSize : ℕ := 10000000

/-- Worker binding `multiplier = Math.pow(10, decimalPlaces)`. -/
def multiplierOf (dp : ℕ) : ℕ := 10 ^ dp

/-- Coordinator binding
`totalNumbers = maxInteger * Math.pow(10, decimalPlaces) - 1`. -/
def totalNumbersOf (maxInteger dp : ℕ) : ℕ := maxInteger * 10 ^ dp - 1

/-- Worker per-index value reconstruction:
`intPart = (i / multiplier) | 0`, `fracPart = i % multiplier`,
`value = intPart + fracPart / multiplier`.  For the loop indices in play
(below 2^53) the float division `i / multiplier` never rounds across an
integer boundary, so truncating the exact quotient is faithful. -/
def valueAt (i dp : ℕ) : ℚ :=
  (jsOrZero ((i : ℚ) / (multiplierOf dp : ℚ)) : ℚ) +
    ((i % multiplierOf dp : ℕ) : ℚ) / (multiplierOf dp : ℚ)

/-- Host-platform primitives used by the worker body, as abstract
parameters: `serializeF` models `Number(value.toFixed(dp))`, `transcodeF`
models `JSON.parse(JSON.stringify(x))`, and `fmt` models the text
`x.toFixed(dp)` used in the textual comparison. -/
structure Codec where
  serializeF : ℚ → ℕ → ℚ
  transcodeF : ℚ → ℚ
  fmt : ℚ → ℕ → String

/-- Worker binding `serialized = Number(value.toFixed(decimalPlaces))` at
index `i`. -/
def serializedAt (c : Codec) (i dp : ℕ) : ℚ :=
  c.serializeF (valueAt i dp) dp

/-- Worker binding `deserialized = JSON.parse(JSON.stringify(serialized))`
at index `i`. -/
def deserializedAt (c : Codec) (i dp : ℕ) : ℚ :=
  c.transcodeF (serializedAt c i dp)

/-- The equivalence check of the worker: the check passes exactly when the
source mismatch condition
`serialized !== deserialized || serialized.toFixed(dp) !== value.toFixed(dp)`
is false. -/
def checkEquivalence (c : Codec) (original serialized deserialized : ℚ) (dp : ℕ) : Bool :=
  !(decide (serialized ≠ deserialized) ||
    decide (c.fmt serialized dp ≠ c.fmt original dp))

/-- The source mismatch condition at index `i`, applied to the values the
worker computes there. -/
def mismatchAt (c : Codec) (dp i : ℕ) : Bool :=
  decide (serializedAt c i dp ≠ deserializedAt c i dp) ||
    decide (c.fmt (serializedAt c i dp) dp ≠ c.fmt (valueAt i dp) dp)

/-- Terminal message a worker posts to the coordinator: either
`{error: true, value, serialized, deserialized}` or `{completed: true}`. -/
inductive Outcome where
  | error (value serialized deserialized : ℚ)
  | completed
  deriving DecidableEq

/-- Mutable state of one `verifyChunk` run.  `slot` is this worker's cell of
the shared Int32Array and `batchProgress` the batch counter; `writes` (the
successive values stored to the slot) and `checked` (the indices on which
the loop body ran) record the observable behaviour the specification talks
about and change nothing in the control flow. -/
structure VState where
  slot : ℤ
  batchProgress : ℕ
  writes : List ℤ
  checked : List ℕ
  deriving DecidableEq

/-- Value stored by a full-batch progress write at loop index `i`, before
the Int32Array wrap. -/
def wvI (start total i : ℕ) : ℤ :=
  ⌊((i : ℚ) - (start : ℚ)) / (total : ℚ) * 1000000⌋

/-- One iteration of the worker loop at index `i`: check the round trip,
on mismatch report the error message, otherwise count the success and on a
full batch store `Math.floor((i - start) / totalInChunk * 1000000)` into the
progress slot. -/
def verifyStep (c : Codec) (dp start total i : ℕ) (s : VState) : VState × Option Outcome :=
  if mismatchAt c dp i then
    ({ s with checked := s.checked ++ [i] },
      some (Outcome.error (valueAt i dp) (serializedAt c i dp) (deserializedAt c i dp)))
  else if s.batchProgress + 1 = batchSize then
    ({ slot := toInt32 (wvI start total i),
       batchProgress := 0,
       writes := s.writes ++ [toInt32 (wvI start total i)],
       checked := s.checked ++ [i] }, none)
  else
    ({ s with batchProgress := s.batchProgress + 1, checked := s.checked ++ [i] }, none)

/-- The worker loop `for (let i = start; i < end; i++)`, over the explicit
ascending list of indices; it returns at the first mismatch. -/
def verifyLoop (c : Codec) (dp start total : ℕ) : List ℕ → VState → VState × Option Outcome
  | [], s => (s, none)
  | i :: rest, s =>
    match verifyStep c dp start total i s with
    | (s', some o) => (s', some o)
    | (s', none) => verifyLoop c dp start total rest s'

/-- The worker function `verifyChunk(start, end, decimalPlaces, ...)`
(`stop` stands for the source parameter `end`).  After the loop, a leftover
partial batch is flushed by
`progressArray[workerId] += batchProgress / totalInChunk` — a fractional
float added to the slot, truncated and wrapped by the Int32Array store —
and the worker posts its terminal message. -/
def verifyChunk (c : Codec) (start stop dp : ℕ) : VState × Outcome :=
  let total := stop - start
  match verifyLoop c dp start total (List.range' start total)
      { slot := 0, batchProgress := 0, writes := [], checked := [] } with
  | (s, some o) => (s, o)
  | (s, none) =>
    if 0 < s.batchProgress then
      ({ s with
          slot := toInt32 (jsTrunc ((s.slot : ℚ) + (s.batchProgress : ℚ) / (total : ℚ))),
          writes := s.writes ++
            [toInt32 (jsTrunc ((s.slot : ℚ) + (s.batchProgress : ℚ) / (total : ℚ)))] },
        Outcome.completed)
    else (s, Outcome.completed)

/-- Coordinator binding `chunkSize = Math.ceil(totalNumbers / numCPUs)`
(exact for the magnitudes in play). -/
def chunkSizeOf (totalNumbers workerCount : ℕ) : ℕ :=
  (totalNumbers + workerCount - 1) / workerCount

/-- Chunk handed to worker `i`:
`start = i * chunkSize`, `end = Math.min((i + 1) * chunkSize, totalNumbers)`. -/
def chunkOf (totalNumbers workerCount i : ℕ) : ℕ × ℕ :=
  (i * chunkSizeOf totalNumbers workerCount,
    min ((i + 1) * chunkSizeOf totalNumbers workerCount) totalNumbers)

/-- The list of chunks the coordinator spawns, one per worker. -/
def partitionChunks (totalNumbers workerCount : ℕ) : List (ℕ × ℕ) :=
  (List.range workerCount).map (chunkOf totalNumbers workerCount)

/-- Membership of an index in a half-open chunk `[start, end)`. -/
def memChunk (ch : ℕ × ℕ) (x : ℕ) : Prop :=
  ch.1 ≤ x ∧ x < ch.2

instance (ch : ℕ × ℕ) (x : ℕ) : Decidable (memChunk ch x) :=
  inferInstanceAs (Decidable (ch.1 ≤ x ∧ x < ch.2))

/-- Number of indices a chunk covers. -/
def chunkLen (ch : ℕ × ℕ) : ℕ :=
  ch.2 - ch.1

/-- Terminal observation of one spawned worker: whether it posted an error
message, whether it posted a completed message, and its exit code. -/
structure WorkerEnd where
  sentError : Bool
  sentCompleted : Bool
  exitCode : ℕ
  deriving DecidableEq

/-- Whether the coordinator declares the run successful (prints the
`All tests passed` summary).  In the source the only thing that prevents the
summary is an error message, whose handler calls `process.exit(1)`: the
`exit` listener merely logs a non-zero code, and `Promise.all` over the
workers' exit events resolves — and prints the success summary — as soon as
every worker has exited, regardless of exit codes or completed messages. -/
def runDeclaredSuccess (ws : List WorkerEnd) : Bool :=
  ws.all fun w => !w.sentError

/-- The ideal lossless instantiation of the host primitives: on-grid values
survive format/reparse and structured-data transport exactly.  This is the
behaviour the program's success path exercises. -/
def exactCodec : Codec where
  serializeF := fun v _ => v
  transcodeF := fun v => v
  fmt := fun v _ => toString v.num

/-- A synthetic codec whose structured-data transport corrupts exactly the
value 1/2 (the value at index 5 with one decimal place), used to exercise
the failure path. -/
def faultyCodec : Codec where
  serializeF := fun v _ => v
  transcodeF := fun v => if v = (1 : ℚ) / 2 then 0 else v
  fmt := fun v _ => toString v.num

/-- The progress-slot stores an all-successes run has performed after
processing `p` indices of a chunk of `total` indices starting at `start`:
one store per full batch, made at the batch's last index. -/
def batchWrites (start total p : ℕ) : List ℤ :=
  (List.range (p / batchSize)).map fun k =>
    toInt32 (wvI start total (start + (k + 1) * batchSize - 1))

/-- Value stored by the closing partial-batch flush of an all-successes run
over a whole chunk: the leftover batch count divided by the chunk length is
added to the slot and the sum is truncated by the Int32Array store. -/
def flushVal (start total : ℕ) : ℤ :=
  toInt32 (jsTrunc (((batchWrites start total total).getLastD 0 : ℚ) +
    ((total % batchSize : ℕ) : ℚ) / (total : ℚ)))

/-- Final verifier state of an all-successes run over the chunk
`[start, start + total)`: the batch writes, plus the flush when a partial
batch remains. -/
def exactFinal (start total : ℕ) : VState :=
  if 0 < total % batchSize then
    { slot := flushVal start total,
      batchProgress := total % batchSize,
      writes := batchWrites start total total ++ [flushVal start total],
      checked := List.range' start total }
  else
    { slot := (batchWrites start total total).getLastD 0,
      batchProgress := total % batchSize,
      writes := batchWrites start total total,
      checked := List.range' start total }

/-- Invariant tying a verifier state to the next index `a` the loop will
process: the slot always holds the last value written (initially zero),
writes so far are non-decreasing and sized below the scale, the slot never
exceeds the value of the next potential write, the batch counter never
exceeds the number of indices processed, a non-empty write list means a full
batch fit in the processed prefix with the counter strictly behind it, and
an empty write list means the counter holds the whole processed prefix with
the slot still zero. -/
structure LoopInv (start total a : ℕ) (s : VState) : Prop where
  chain : List.Chain' (· ≤ ·) (0 :: s.writes)
  slot_last : s.slot = s.writes.getLastD 0
  slot_nonneg : 0 ≤ s.slot
  slot_le : s.slot ≤ 999999
  slot_le_next : a < start + total → s.slot ≤ wvI start total a
  bp_le : s.batchProgress ≤ a - start
  writes_ne : s.writes ≠ [] → batchSize ≤ a - start ∧ s.batchProgress < a - start
  writes_nil : s.writes = [] → s.batchProgress = a - start ∧ s.slot = 0

/-- Wrapping to 32 bits is the identity on the signed 32-bit range. -/
theorem toInt32_eq_self {n : ℤ} (h0 : 0 ≤ n) (h1 : n < 2 ^ 31) : toInt32 n = n := by
  unfold toInt32
  rw [Int.emod_eq_of_lt (by omega) (by omega)]
  omega

/-- Truncation toward zero agrees with the floor on non-negative arguments. -/
theorem jsTrunc_of_nonneg {q : ℚ} (h : 0 ≤ q) : jsTrunc q = ⌊q⌋ := by
  unfold jsTrunc
  rw [if_neg (by exact not_lt.mpr h)]

/-- Floor of a cast natural quotient is the natural division. -/
theorem floor_natCast_div (i m : ℕ) (hm : 0 < m) :
    ⌊(i : ℚ) / (m : ℚ)⌋ = (i / m : ℕ) := by
  have hm' : (0 : ℚ) < (m : ℚ) := by exact_mod_cast hm
  rw [Int.floor_eq_iff]
  constructor
  · rw [le_div_iff₀ hm']
    have := Nat.div_mul_le_self i m
    exact_mod_cast this
  · rw [div_lt_iff₀ hm', mul_comm]
    have h1 : i < m * (i / m + 1) := Nat.lt_mul_div_succ i hm
    exact_mod_cast h1

/-- As long as the integer part does not overflow the signed 32-bit range,
the worker's reconstruction is exactly integer part plus scaled remainder. -/
theorem valueAt_eq (i dp : ℕ) (h : i / 10 ^ dp < 2 ^ 31) :
    valueAt i dp =
      ((i / 10 ^ dp : ℕ) : ℚ) + ((i % 10 ^ dp : ℕ) : ℚ) / ((10 ^ dp : ℕ) : ℚ) := by
  have hm : 0 < 10 ^ dp := Nat.pos_pow_of_pos dp (by omega)
  have hq : (0 : ℚ) ≤ (i : ℚ) / ((10 ^ dp : ℕ) : ℚ) := by positivity
  unfold valueAt jsOrZero multiplierOf
  rw [jsTrunc_of_nonneg hq, floor_natCast_div i (10 ^ dp) hm,
    toInt32_eq_self (by positivity) (by exact_mod_cast h)]
  norm_cast

/-- On the same range the reconstruction equals the exact quotient
`index / 10^dp`. -/
theorem valueAt_eq_div (i dp : ℕ) (h : i / 10 ^ dp < 2 ^ 31) :
    valueAt i dp = (i : ℚ) / ((10 ^ dp : ℕ) : ℚ) := by
  rw [valueAt_eq i dp h]
  have hm : ((10 ^ dp : ℕ) : ℚ) ≠ 0 := by positivity
  rw [eq_div_iff hm, add_mul, div_mul_cancel₀ _ hm]
  exact_mod_cast Nat.div_add_mod' i (10 ^ dp)

/-- C1: the equivalence check passes if and only if the transcoded value
equals the serialized value and the serialized value formats to the same
text as the original value; whenever either condition fails, the per-index
mismatch condition of the verifier fires. -/
theorem checkEquivalence_spec (c : Codec) (original serialized deserialized : ℚ) (dp : ℕ) :
    (checkEquivalence c original serialized deserialized dp = true ↔
      (serialized = deserialized ∧ c.fmt serialized dp = c.fmt original dp)) ∧
    (∀ i : ℕ, mismatchAt c dp i =
      !checkEquivalence c (valueAt i dp) (serializedAt c i dp) (deserializedAt c i dp) dp) := by
  constructor
  · simp [checkEquivalence]
  · intro i
    simp [checkEquivalence, mismatchAt]

/-- C2: for every index below `MAX_INTEGER * 10^DECIMAL_PLACES` the value
the worker reconstructs is exactly the true integer quotient of the index by
the multiplier plus the remainder scaled by the multiplier (the 32-bit wrap
in `(i / multiplier) | 0` never fires because the integer part stays below
`MAX_INTEGER = 10^9 < 2^31`). -/
theorem valueAt_in_range (i : ℕ) (h : i < MAX_INTEGER * 10 ^ DECIMAL_PLACES) :
    valueAt i DECIMAL_PLACES =
      ((i / 10 ^ DECIMAL_PLACES : ℕ) : ℚ) +
        ((i % 10 ^ DECIMAL_PLACES : ℕ) : ℚ) / ((10 ^ DECIMAL_PLACES : ℕ) : ℚ) := by
  apply valueAt_eq
  have : i / 10 ^ DECIMAL_PLACES < MAX_INTEGER := by
    apply Nat.div_lt_of_lt_mul
    rw [mul_comm]
    exact h
  unfold MAX_INTEGER at this
  omega

/-- Witness for C2 at the largest index of the program's range. -/
theorem valueAt_in_range_witness :
    999999999999999 < MAX_INTEGER * 10 ^ DECIMAL_PLACES ∧
      valueAt 999999999999999 DECIMAL_PLACES =
        ((999999999999999 / 10 ^ DECIMAL_PLACES : ℕ) : ℚ) +
          ((999999999999999 % 10 ^ DECIMAL_PLACES : ℕ) : ℚ) / ((10 ^ DECIMAL_PLACES : ℕ) : ℚ) :=
  ⟨by decide, valueAt_in_range 999999999999999 (by decide)⟩

/-- C6 (code bug): a worker that exits with a non-zero code without having
posted any terminal message does not prevent the coordinator from declaring
the run successful.  The single worker below posted neither an error nor a
completed message and exited with code 1, yet `runDeclaredSuccess` is true:
`Promise.all` over the exit events resolves and the `All tests passed`
summary is printed, the non-zero exit code having only been logged. -/
theorem runDeclaredSuccess_ignores_worker_fault :
    runDeclaredSuccess [{ sentError := false, sentCompleted := false, exitCode := 1 }] = true ∧
      (WorkerEnd.mk false false 1).sentCompleted = false ∧
      (WorkerEnd.mk false false 1).exitCode = 1 := by
  constructor
  · rfl
  · exact ⟨rfl, rfl⟩

/-- C7 (code bug): with the program's constants, index `0` yields `0.0` as
claimed, but the last index the run actually verifies,
`totalNumbers - 1 = 10^15 - 2`, yields `999999999.999998` — its final
fractional digits are `999998`, not all `9`.  The all-nines value
`999999999.999999 = MAX_INTEGER - 10^-6` sits at index
`totalNumbers = 10^15 - 1`, which the half-open chunks `[start, end)` with
`end <= totalNumbers` never reach, even though the coordinator's own console
message announces the range `0.000000 to 999999999.999999`. -/
theorem valueAt_boundary_mismatch :
    valueAt 0 DECIMAL_PLACES = 0 ∧
      valueAt (totalNumbersOf MAX_INTEGER DECIMAL_PLACES - 1) DECIMAL_PLACES =
        999999999 + (999998 : ℚ) / 1000000 ∧
      (999999999 + (999998 : ℚ) / 1000000 : ℚ) ≠
        (MAX_INTEGER : ℚ) - 1 / ((10 ^ DECIMAL_PLACES : ℕ) : ℚ) ∧
      valueAt (totalNumbersOf MAX_INTEGER DECIMAL_PLACES) DECIMAL_PLACES =
        (MAX_INTEGER : ℚ) - 1 / ((10 ^ DECIMAL_PLACES : ℕ) : ℚ) := by
  have h0 : totalNumbersOf MAX_INTEGER DECIMAL_PLACES - 1 = 999999999999998 := by decide
  have h1 : totalNumbersOf MAX_INTEGER DECIMAL_PLACES = 999999999999999 := by decide
  refine ⟨?_, ?_, ?_, ?_⟩
  · rw [valueAt_eq 0 DECIMAL_PLACES (by decide)]
    norm_num
  · rw [h0, valueAt_eq 999999999999998 DECIMAL_PLACES (by decide)]
    norm_num [DECIMAL_PLACES]
  · unfold MAX_INTEGER DECIMAL_PLACES
    norm_num
  · rw [h1, valueAt_eq 999999999999999 DECIMAL_PLACES (by decide)]
    unfold MAX_INTEGER DECIMAL_PLACES
    norm_num

/-- Ceiling division bounds: the total is at most workers times chunk size. -/
theorem total_le_mul_chunkSize (T wc : ℕ) (hwc : 1 ≤ wc) :
    T ≤ wc * chunkSizeOf T wc := by
  unfold chunkSizeOf
  have hd := Nat.div_add_mod (T + wc - 1) wc
  have hm : (T + wc - 1) % wc < wc := Nat.mod_lt _ (by omega)
  omega

/-- A positive total forces a positive chunk size. -/
theorem chunkSizeOf_pos (T wc : ℕ) (hT : 0 < T) (hwc : 1 ≤ wc) :
    0 < chunkSizeOf T wc := by
  unfold chunkSizeOf
  exact (Nat.le_div_iff_mul_le (by omega : 0 < wc)).mpr (by omega)

/-- Any index of the range lies in the chunk numbered by its quotient. -/
theorem mem_chunk_div (T wc x : ℕ) (hT : 0 < T) (hwc : 1 ≤ wc) (hx : x < T) :
    x / chunkSizeOf T wc < wc ∧ memChunk (chunkOf T wc (x / chunkSizeOf T wc)) x := by
  set cs := chunkSizeOf T wc with hcs
  have hcs0 : 0 < cs := chunkSizeOf_pos T wc hT hwc
  have hi : x / cs < wc := by
    rw [Nat.div_lt_iff_lt_mul hcs0]
    calc x < T := hx
      _ ≤ wc * cs := total_le_mul_chunkSize T wc hwc
  refine ⟨hi, ?_, ?_⟩
  · exact Nat.div_mul_le_self x cs
  · have hup : x < (x / cs + 1) * cs := by
      have := Nat.lt_mul_div_succ x hcs0
      calc x < cs * (x / cs + 1) := this
        _ = (x / cs + 1) * cs := by ring
    exact lt_min hup hx

/-- Membership in a chunk pins down the chunk number as the quotient. -/
theorem mem_chunk_unique (T wc x i : ℕ) (hT : 0 < T) (hwc : 1 ≤ wc)
    (hmem : memChunk (chunkOf T wc i) x) : i = x / chunkSizeOf T wc := by
  set cs := chunkSizeOf T wc with hcs
  have hcs0 : 0 < cs := chunkSizeOf_pos T wc hT hwc
  obtain ⟨hlo, hhi⟩ := hmem
  have hhi' : x < (i + 1) * cs := lt_of_lt_of_le hhi (by unfold chunkOf; exact min_le_left _ _)
  have hlo' : i * cs ≤ x := hlo
  symm
  exact Nat.div_eq_of_lt_le hlo' hhi'

/-- C3 (amended): for any positive total and at least one worker, the
coordinator produces exactly `workerCount` chunks, every index below the
total lies in exactly one of them, distinct chunks never share an index, and
chunk lengths are non-increasing: chunks can shrink or become empty only in
a trailing suffix (several trailing chunks may be empty when the chunk size
exceeds what remains, not just the final one). -/
theorem partitionChunks_guarantees (T wc : ℕ) (hT : 0 < T) (hwc : 1 ≤ wc) :
    (partitionChunks T wc).length = wc ∧
      (∀ x, x < T → ∃! i, i < wc ∧ memChunk (chunkOf T wc i) x) ∧
      (∀ i j, i < wc → j < wc → i ≠ j →
        ∀ x, memChunk (chunkOf T wc i) x → ¬ memChunk (chunkOf T wc j) x) ∧
      (∀ i, i + 1 < wc → chunkLen (chunkOf T wc (i + 1)) ≤ chunkLen (chunkOf T wc i)) := by
  refine ⟨?_, ?_, ?_, ?_⟩
  · simp [partitionChunks]
  · intro x hx
    obtain ⟨hi, hmem⟩ := mem_chunk_div T wc x hT hwc hx
    refine ⟨x / chunkSizeOf T wc, ⟨hi, hmem⟩, ?_⟩
    intro j hj
    exact mem_chunk_unique T wc x j hT hwc hj.2
  · intro i j _ _ hne x hxi hxj
    exact hne ((mem_chunk_unique T wc x i hT hwc hxi).trans
      (mem_chunk_unique T wc x j hT hwc hxj).symm)
  · intro i _
    unfold chunkLen chunkOf
    set cs := chunkSizeOf T wc
    have e1 : (i + 1) * cs = i * cs + cs := by ring
    have e2 : (i + 2) * cs = i * cs + 2 * cs := by ring
    simp only
    rw [e1, e2]
    omega

/-- Witness for the amended C3 at `totalNumbers = 10`, `workerCount = 3`. -/
theorem partitionChunks_guarantees_witness :
    0 < 10 ∧ 1 ≤ 3 ∧
      ((partitionChunks 10 3).length = 3 ∧
        (∀ x, x < 10 → ∃! i, i < 3 ∧ memChunk (chunkOf 10 3 i) x) ∧
        (∀ i j, i < 3 → j < 3 → i ≠ j →
          ∀ x, memChunk (chunkOf 10 3 i) x → ¬ memChunk (chunkOf 10 3 j) x) ∧
        (∀ i, i + 1 < 3 → chunkLen (chunkOf 10 3 (i + 1)) ≤ chunkLen (chunkOf 10 3 i))) :=
  ⟨by decide, by decide, partitionChunks_guarantees 10 3 (by decide) (by decide)⟩

/-- C3 counterexample: with `totalNumbers = 1` and `workerCount = 3` the
claim as stated is false: it is not only the last chunk that can be smaller
or empty.  Chunk 1 — not the last chunk, since chunk 2 exists — is empty
(`[1, 1)`, length 0, not the chunk size 1), so the conjunction of the
claimed guarantees fails. -/
theorem partitionChunks_last_only_counterexample :
    ¬ ((partitionChunks 1 3).length = 3 ∧
        (∀ x, x < 1 → ∃! i, i < 3 ∧ memChunk (chunkOf 1 3 i) x) ∧
        (∀ i, i < 3 → i ≠ 2 → chunkLen (chunkOf 1 3 i) = chunkSizeOf 1 3)) := by
  intro h
  have h1 := h.2.2 1 (by omega) (by omega)
  revert h1
  decide

/-- Unfolding of the worker step when the check fails at `i`. -/
theorem verifyStep_mismatch (c : Codec) (dp start total i : ℕ) (s : VState)
    (h : mismatchAt c dp i = true) :
    verifyStep c dp start total i s =
      ({ s with checked := s.checked ++ [i] },
        some (Outcome.error (valueAt i dp) (serializedAt c i dp) (deserializedAt c i dp))) := by
  unfold verifyStep
  rw [if_pos h]

/-- Unfolding of the worker step when the check passes and the batch
counter reaches the batch size. -/
theorem verifyStep_pass_full (c : Codec) (dp start total i : ℕ) (s : VState)
    (h : mismatchAt c dp i = false) (hb : s.batchProgress + 1 = batchSize) :
    verifyStep c dp start total i s =
      ({ slot := toInt32 (wvI start total i),
         batchProgress := 0,
         writes := s.writes ++ [toInt32 (wvI start total i)],
         checked := s.checked ++ [i] }, none) := by
  unfold verifyStep
  rw [if_neg (by simp [h]), if_pos hb]

/-- Unfolding of the worker step when the check passes mid-batch. -/
theorem verifyStep_pass_partial (c : Codec) (dp start total i : ℕ) (s : VState)
    (h : mismatchAt c dp i = false) (hb : ¬ s.batchProgress + 1 = batchSize) :
    verifyStep c dp start total i s =
      ({ s with batchProgress := s.batchProgress + 1, checked := s.checked ++ [i] }, none) := by
  unfold verifyStep
  rw [if_neg (by simp [h]), if_neg hb]

/-- A prefix of indices on which the check passes is consumed by the loop
without a terminal outcome, appending exactly that prefix to the list of
indices worked on. -/
theorem verifyLoop_pass_prefix (c : Codec) (dp start total : ℕ) :
    ∀ (l rest : List ℕ) (s : VState), (∀ i ∈ l, mismatchAt c dp i = false) →
      ∃ s' : VState, verifyLoop c dp start total (l ++ rest) s =
        verifyLoop c dp start total rest s' ∧ s'.checked = s.checked ++ l
  | [], rest, s, _ => ⟨s, rfl, by simp⟩
  | i :: l, rest, s, hpass => by
    have hmi : mismatchAt c dp i = false := hpass i (by simp)
    by_cases hb : s.batchProgress + 1 = batchSize
    · obtain ⟨s', h1, h2⟩ := verifyLoop_pass_prefix c dp start total l rest
        { slot := toInt32 (wvI start total i),
          batchProgress := 0,
          writes := s.writes ++ [toInt32 (wvI start total i)],
          checked := s.checked ++ [i] }
        (fun j hj => hpass j (by simp [hj]))
      refine ⟨s', ?_, ?_⟩
      · rw [List.cons_append]
        simp only [verifyLoop, verifyStep_pass_full c dp start total i s hmi hb]
        exact h1
      · rw [h2]
        simp
    · obtain ⟨s', h1, h2⟩ := verifyLoop_pass_prefix c dp start total l rest
        { s with batchProgress := s.batchProgress + 1, checked := s.checked ++ [i] }
        (fun j hj => hpass j (by simp [hj]))
      refine ⟨s', ?_, ?_⟩
      · rw [List.cons_append]
        simp only [verifyLoop, verifyStep_pass_partial c dp start total i s hmi hb]
        exact h1
      · rw [h2]
        simp

/-- First-failure characterization of a worker run: if the check passes on
every index of the chunk before `j` and fails at `j`, the run ends in the
error message built from the values at `j`, and the loop body has run on
exactly the indices from `start` to `j`. -/
theorem verifyChunk_firstFailure (c : Codec) (start stop dp j : ℕ)
    (hj1 : start ≤ j) (hj2 : j < stop) (hmj : mismatchAt c dp j = true)
    (hpass : ∀ i ∈ List.range' start (j - start), mismatchAt c dp i = false) :
    (verifyChunk c start stop dp).2 =
        Outcome.error (valueAt j dp) (serializedAt c j dp) (deserializedAt c j dp) ∧
      (verifyChunk c start stop dp).1.checked = List.range' start (j - start + 1) := by
  have hsplit : List.range' start (stop - start) =
      List.range' start (j - start) ++ j :: List.range' (j + 1) (stop - j - 1) := by
    obtain ⟨k, hk⟩ : ∃ k, stop - j = k + 1 := ⟨stop - j - 1, by omega⟩
    have e1 : j :: List.range' (j + 1) (stop - j - 1) = List.range' j (stop - j) := by
      rw [hk, List.range'_succ]
      norm_num
    rw [e1]
    have e2 := List.range'_append start (j - start) (stop - j) 1
    rw [one_mul, show start + (j - start) = j by omega] at e2
    rw [show stop - start = (stop - j) + (j - start) by omega]
    exact e2.symm
  obtain ⟨s', h1, h2⟩ := verifyLoop_pass_prefix c dp start (stop - start)
    (List.range' start (j - start)) (j :: List.range' (j + 1) (stop - j - 1))
    { slot := 0, batchProgress := 0, writes := [], checked := [] } hpass
  have hloop : verifyLoop c dp start (stop - start) (List.range' start (stop - start))
      { slot := 0, batchProgress := 0, writes := [], checked := [] } =
      ({ s' with checked := s'.checked ++ [j] },
        some (Outcome.error (valueAt j dp) (serializedAt c j dp) (deserializedAt c j dp))) := by
    rw [hsplit, h1]
    simp only [verifyLoop, verifyStep_mismatch c dp start (stop - start) j s' hmj]
  have hcheck : s'.checked ++ [j] = List.range' start (j - start + 1) := by
    rw [h2]
    simp only [List.nil_append]
    rw [List.range'_concat, one_mul, show start + (j - start) = j by omega]
  constructor
  · simp only [verifyChunk, hloop]
  · simp only [verifyChunk, hloop]
    exact hcheck

/-- C4: the chunk verifier is fail-fast.  If `j` is the first index of the
chunk `[start, stop)` whose equivalence check fails, the run emits the
single error outcome built at `j`, the loop body runs on exactly the indices
`start..j` — every index worked on is at most `j`, so no later index of the
chunk gets any per-index work — and the outcome is not `Completed`. -/
theorem verifyChunk_failFast (c : Codec) (start stop dp j : ℕ)
    (hj1 : start ≤ j) (hj2 : j < stop) (hmj : mismatchAt c dp j = true)
    (hpass : ∀ i ∈ List.range' start (j - start), mismatchAt c dp i = false) :
    (verifyChunk c start stop dp).2 =
        Outcome.error (valueAt j dp) (serializedAt c j dp) (deserializedAt c j dp) ∧
      (verifyChunk c start stop dp).1.checked = List.range' start (j - start + 1) ∧
      (∀ i ∈ (verifyChunk c start stop dp).1.checked, i ≤ j) ∧
      (verifyChunk c start stop dp).2 ≠ Outcome.completed := by
  obtain ⟨ho, hc⟩ := verifyChunk_firstFailure c start stop dp j hj1 hj2 hmj hpass
  refine ⟨ho, hc, ?_, ?_⟩
  · intro i hi
    rw [hc] at hi
    have := List.mem_range'.mp hi
    omega
  · rw [ho]
    intro hcon
    exact Outcome.noConfusion hcon

/-- Values of small indices with one decimal place are the exact tenths. -/
theorem valueAt_tenth (i : ℕ) (hi : i < 10) : valueAt i 1 = (i : ℚ) / 10 := by
  have hd : i / 10 ^ 1 < 2 ^ 31 := by
    have := Nat.div_le_self i (10 ^ 1)
    omega
  rw [valueAt_eq_div i 1 hd]
  norm_num

/-- The synthetic faulty transport corrupts index 5 of the small chunk. -/
theorem faulty_mismatch_five : mismatchAt faultyCodec 1 5 = true := by
  have h5 : valueAt 5 1 = 1 / 2 := by
    rw [valueAt_tenth 5 (by omega)]
    norm_num
  simp [mismatchAt, serializedAt, deserializedAt, faultyCodec, h5]

/-- The synthetic faulty transport passes every index before 5. -/
theorem faulty_pass_below_five :
    ∀ i ∈ List.range' 0 5, mismatchAt faultyCodec 1 i = false := by
  intro i hi
  have hi5 : i < 5 := by
    have := List.mem_range'.mp hi
    omega
  have hv : valueAt i 1 = (i : ℚ) / 10 := valueAt_tenth i (by omega)
  have hne : ¬ ((i : ℚ) / 10 = 1 / 2) := by
    intro hcon
    have h2 : (i : ℚ) = 5 := by linarith
    have : i = 5 := by exact_mod_cast h2
    omega
  simp only [mismatchAt, serializedAt, deserializedAt, faultyCodec, hv]
  rw [if_neg hne]
  simp

/-- Witness for C4: with the synthetic transport corrupting index 5 of the
chunk `[0, 10)` at one decimal place, the run stops at 5, the loop body runs
on exactly the indices 0..5, and no completed outcome is emitted. -/
theorem verifyChunk_failFast_witness :
    ((verifyChunk faultyCodec 0 10 1).2 =
        Outcome.error (valueAt 5 1) (serializedAt faultyCodec 5 1) (deserializedAt faultyCodec 5 1) ∧
      (verifyChunk faultyCodec 0 10 1).1.checked = List.range' 0 (5 - 0 + 1) ∧
      (∀ i ∈ (verifyChunk faultyCodec 0 10 1).1.checked, i ≤ 5) ∧
      (verifyChunk faultyCodec 0 10 1).2 ≠ Outcome.completed) :=
  verifyChunk_failFast faultyCodec 0 10 1 5 (by omega) (by omega)
    faulty_mismatch_five faulty_pass_below_five

/-- C5 (amended): on the first failure the emitted error message carries the
reconstructed decimal value at the failing index and the two observed
round-trip values; the index is not a field of the message, but for indices
whose integer part stays in the 32-bit range the value determines it, since
value times the multiplier equals the index. -/
theorem verifyChunk_errorPayload (c : Codec) (start stop dp j : ℕ)
    (hj1 : start ≤ j) (hj2 : j < stop) (hmj : mismatchAt c dp j = true)
    (hpass : ∀ i ∈ List.range' start (j - start), mismatchAt c dp i = false)
    (hrange : j / 10 ^ dp < 2 ^ 31) :
    (verifyChunk c start stop dp).2 =
        Outcome.error (valueAt j dp) (serializedAt c j dp) (deserializedAt c j dp) ∧
      valueAt j dp * ((10 ^ dp : ℕ) : ℚ) = (j : ℚ) := by
  refine ⟨(verifyChunk_firstFailure c start stop dp j hj1 hj2 hmj hpass).1, ?_⟩
  rw [valueAt_eq_div j dp hrange, div_mul_cancel₀]
  positivity

/-- Witness for the amended C5 at the synthetic failure. -/
theorem verifyChunk_errorPayload_witness :
    ((verifyChunk faultyCodec 0 10 1).2 =
        Outcome.error (valueAt 5 1) (serializedAt faultyCodec 5 1) (deserializedAt faultyCodec 5 1) ∧
      valueAt 5 1 * ((10 ^ 1 : ℕ) : ℚ) = (5 : ℚ)) :=
  verifyChunk_errorPayload faultyCodec 0 10 1 5 (by omega) (by omega)
    faulty_mismatch_five faulty_pass_below_five (by omega)

/-- C5 counterexample: the message emitted at the synthetic failure of
index 5 is `error 1/2 1/2 0` — its fields are the reconstructed value 1/2
and the two observed values 1/2 and 0, and none of the three is the failing
index 5: the outcome does not carry the index itself, only the value. -/
theorem verifyChunk_error_payload_counterexample :
    (verifyChunk faultyCodec 0 10 1).2 = Outcome.error (1 / 2) (1 / 2) 0 ∧
      (1 / 2 : ℚ) ≠ 5 ∧ (0 : ℚ) ≠ 5 := by
  have h5 : valueAt 5 1 = 1 / 2 := by
    rw [valueAt_tenth 5 (by omega)]
    norm_num
  have hs : serializedAt faultyCodec 5 1 = 1 / 2 := by
    simp [serializedAt, faultyCodec, h5]
  have hd : deserializedAt faultyCodec 5 1 = 0 := by
    simp only [deserializedAt]
    rw [hs]
    norm_num [faultyCodec]
  have := (verifyChunk_firstFailure faultyCodec 0 10 1 5 (by omega) (by omega)
    faulty_mismatch_five faulty_pass_below_five).1
  rw [h5, hs, hd] at this
  refine ⟨this, by norm_num, by norm_num⟩

/-- A full-batch write value is non-negative once past the chunk start. -/
theorem wvI_nonneg (start total i : ℕ) (h1 : start ≤ i) : 0 ≤ wvI start total i := by
  unfold wvI
  rw [Int.floor_nonneg]
  apply mul_nonneg _ (by norm_num)
  apply div_nonneg _ (by positivity)
  rw [sub_nonneg]
  exact_mod_cast h1

/-- A full-batch write value stays below the progress scale inside the
chunk. -/
theorem wvI_lt (start total i : ℕ) (h2 : i < start + total) :
    wvI start total i ≤ 999999 := by
  have h : wvI start total i < 1000000 := by
    unfold wvI
    have hcast : ((1000000 : ℤ) : ℚ) = 1000000 := by norm_num
    rw [Int.floor_lt, hcast]
    rcases Nat.eq_zero_or_pos total with h0 | hpos
    · subst h0
      norm_num
    · have ht : (0 : ℚ) < (total : ℚ) := by exact_mod_cast hpos
      have hnum : (i : ℚ) - (start : ℚ) < (total : ℚ) := by
        have hq : (i : ℚ) < (start : ℚ) + (total : ℚ) := by exact_mod_cast h2
        linarith
      have hdiv : ((i : ℚ) - (start : ℚ)) / (total : ℚ) < 1 := (div_lt_one ht).mpr hnum
      calc ((i : ℚ) - (start : ℚ)) / (total : ℚ) * 1000000 < 1 * 1000000 := by
            exact mul_lt_mul_of_pos_right hdiv (by norm_num)
        _ = 1000000 := by norm_num
  omega

/-- Full-batch write values are monotone in the loop index. -/
theorem wvI_mono (start total : ℕ) {i j : ℕ} (hij : i ≤ j) :
    wvI start total i ≤ wvI start total j := by
  unfold wvI
  apply Int.floor_le_floor
  apply mul_le_mul_of_nonneg_right _ (by norm_num)
  rcases Nat.eq_zero_or_pos total with h0 | hpos
  · subst h0
    simp
  · have ht : (0 : ℚ) < (total : ℚ) := by exact_mod_cast hpos
    have hnum : (i : ℚ) - (start : ℚ) ≤ (j : ℚ) - (start : ℚ) := by
      have hq : (i : ℚ) ≤ (j : ℚ) := by exact_mod_cast hij
      linarith
    gcongr

/-- Appending a value at least as large as the last element preserves a
non-decreasing chain. -/
theorem chain_append_last :
    ∀ (l : List ℤ) (a w : ℤ), List.Chain' (· ≤ ·) (a :: l) → l.getLastD a ≤ w →
      List.Chain' (· ≤ ·) ((a :: l) ++ [w])
  | [], a, w, _, hw => by
    refine List.chain'_cons.mpr ⟨?_, List.chain'_singleton w⟩
    exact hw
  | b :: l, a, w, h, hw => by
    rw [List.cons_append]
    obtain ⟨hab, hbl⟩ := List.chain'_cons.mp h
    refine List.chain'_cons.mpr ⟨hab, ?_⟩
    rw [List.getLastD_cons] at hw
    exact chain_append_last l b w hbl hw

/-- Master invariant of the worker loop: over any in-range index window the
write chain stays non-decreasing, and when the loop finishes the window
without a terminal outcome the invariant moves to the window's end. -/
theorem verifyLoop_inv (c : Codec) (dp start total : ℕ) :
    ∀ (n a : ℕ) (s : VState), start ≤ a → a + n ≤ start + total →
      LoopInv start total a s →
      List.Chain' (· ≤ ·)
          (0 :: (verifyLoop c dp start total (List.range' a n) s).1.writes) ∧
        ((verifyLoop c dp start total (List.range' a n) s).2 = none →
          LoopInv start total (a + n) (verifyLoop c dp start total (List.range' a n) s).1) := by
  intro n
  induction n with
  | zero =>
    intro a s _ _ hinv
    exact ⟨hinv.chain, fun _ => hinv⟩
  | succ n ih =>
    intro a s ha han hinv
    rw [List.range'_succ]
    have ha' : a < start + total := by omega
    have hB : 0 < batchSize := by norm_num [batchSize]
    by_cases hm : mismatchAt c dp a = true
    · -- the check fails at `a`: the loop returns at once
      simp only [verifyLoop, verifyStep_mismatch c dp start total a s hm]
      exact ⟨hinv.chain, fun hcon => absurd hcon (by simp)⟩
    · have hmf : mismatchAt c dp a = false := by simpa using hm
      by_cases hb : s.batchProgress + 1 = batchSize
      · -- full batch: a write happens
        simp only [verifyLoop, verifyStep_pass_full c dp start total a s hmf hb]
        set w : ℤ := toInt32 (wvI start total a) with hwdef
        have hw_eq : w = wvI start total a := by
          rw [hwdef]
          exact toInt32_eq_self (wvI_nonneg start total a ha)
            (lt_of_le_of_lt (wvI_lt start total a ha') (by norm_num))
        have hslot_w : s.slot ≤ w := by
          rw [hw_eq]
          exact hinv.slot_le_next ha'
        have hinv1 : LoopInv start total (a + 1)
            { slot := w, batchProgress := 0,
              writes := s.writes ++ [w], checked := s.checked ++ [a] } := by
          refine ⟨?_, ?_, ?_, ?_, ?_, ?_, ?_, ?_⟩
          · show List.Chain' (· ≤ ·) (0 :: (s.writes ++ [w]))
            have hchain : List.Chain' (· ≤ ·) (((0 : ℤ) :: s.writes) ++ [w]) :=
              chain_append_last s.writes 0 w hinv.chain
                (by rw [← hinv.slot_last]; exact hslot_w)
            simpa using hchain
          · show w = (s.writes ++ [w]).getLastD 0
            exact (List.getLastD_concat _ _ _).symm
          · show (0 : ℤ) ≤ w
            rw [hw_eq]
            exact wvI_nonneg start total a ha
          · show w ≤ 999999
            rw [hw_eq]
            exact wvI_lt start total a ha'
          · intro _
            show w ≤ wvI start total (a + 1)
            rw [hw_eq]
            exact wvI_mono start total (Nat.le_succ a)
          · exact Nat.zero_le _
          · intro _
            show batchSize ≤ a + 1 - start ∧ 0 < a + 1 - start
            have := hinv.bp_le
            constructor <;> omega
          · intro hnil
            exact absurd hnil (by simp)
        have hrec := ih (a + 1) _ (by omega) (by omega) hinv1
        rw [show a + (n + 1) = a + 1 + n by omega]
        exact hrec
      · -- mid-batch: only the counter moves
        simp only [verifyLoop, verifyStep_pass_partial c dp start total a s hmf hb]
        have hinv1 : LoopInv start total (a + 1)
            { s with batchProgress := s.batchProgress + 1, checked := s.checked ++ [a] } := by
          refine ⟨hinv.chain, hinv.slot_last, hinv.slot_nonneg, hinv.slot_le, ?_, ?_, ?_, ?_⟩
          · intro _
            show s.slot ≤ wvI start total (a + 1)
            exact le_trans (hinv.slot_le_next ha') (wvI_mono start total (Nat.le_succ a))
          · show s.batchProgress + 1 ≤ a + 1 - start
            have := hinv.bp_le
            omega
          · intro hne
            show batchSize ≤ a + 1 - start ∧ s.batchProgress + 1 < a + 1 - start
            have := hinv.writes_ne hne
            constructor <;> omega
          · intro hnil
            have h2 := hinv.writes_nil hnil
            constructor
            · show s.batchProgress + 1 = a + 1 - start
              omega
            · exact h2.2
        have hrec := ih (a + 1) _ (by omega) (by omega) hinv1
        rw [show a + (n + 1) = a + 1 + n by omega]
        exact hrec

/-- The invariant holds at the start of the chunk for the zeroed state the
coordinator hands each worker (the shared Int32Array is pre-zeroed). -/
theorem loopInv_init (start total : ℕ) :
    LoopInv start total start
      { slot := 0, batchProgress := 0, writes := [], checked := [] } := by
  refine ⟨?_, rfl, le_refl 0, by norm_num, ?_, ?_, ?_, ?_⟩
  · simp
  · intro _
    exact wvI_nonneg start total start (le_refl start)
  · show 0 ≤ start - start
    omega
  · intro hne
    exact absurd rfl hne
  · intro _
    refine ⟨?_, rfl⟩
    show 0 = start - start
    omega

/-- Bounds on the closing flush value: it never decreases the slot, stays
below the full scale, and for a chunk smaller than a batch it is at most 1. -/
theorem flush_val_bounds (start total : ℕ) (s : VState)
    (hinv : LoopInv start total (start + total) s) (hbp : 0 < s.batchProgress) :
    s.slot ≤ toInt32 (jsTrunc ((s.slot : ℚ) + (s.batchProgress : ℚ) / (total : ℚ))) ∧
      toInt32 (jsTrunc ((s.slot : ℚ) + (s.batchProgress : ℚ) / (total : ℚ))) < 1000000 ∧
      (total < batchSize →
        toInt32 (jsTrunc ((s.slot : ℚ) + (s.batchProgress : ℚ) / (total : ℚ))) ≤ 1) := by
  have hbpt : s.batchProgress ≤ total := by
    have := hinv.bp_le
    omega
  have ht0 : 0 < total := by omega
  have htq : (0 : ℚ) < (total : ℚ) := by exact_mod_cast ht0
  have hslotq : (0 : ℚ) ≤ (s.slot : ℚ) := by exact_mod_cast hinv.slot_nonneg
  have hfrac0 : (0 : ℚ) ≤ (s.batchProgress : ℚ) / (total : ℚ) := by positivity
  have hfrac1 : (s.batchProgress : ℚ) / (total : ℚ) ≤ 1 := by
    rw [div_le_one htq]
    exact_mod_cast hbpt
  have harg0 : (0 : ℚ) ≤ (s.slot : ℚ) + (s.batchProgress : ℚ) / (total : ℚ) := by linarith
  have htr : jsTrunc ((s.slot : ℚ) + (s.batchProgress : ℚ) / (total : ℚ)) =
      s.slot + ⌊(s.batchProgress : ℚ) / (total : ℚ)⌋ := by
    rw [jsTrunc_of_nonneg harg0, Int.floor_int_add]
  have hfl0 : 0 ≤ ⌊(s.batchProgress : ℚ) / (total : ℚ)⌋ := Int.floor_nonneg.mpr hfrac0
  have hfl1 : ⌊(s.batchProgress : ℚ) / (total : ℚ)⌋ ≤ 1 := by
    calc ⌊(s.batchProgress : ℚ) / (total : ℚ)⌋ ≤ ⌊(1 : ℚ)⌋ := Int.floor_le_floor hfrac1
      _ = 1 := Int.floor_one
  have hslot999 := hinv.slot_le
  have hslot0le := hinv.slot_nonneg
  have hv32 : toInt32 (s.slot + ⌊(s.batchProgress : ℚ) / (total : ℚ)⌋) =
      s.slot + ⌊(s.batchProgress : ℚ) / (total : ℚ)⌋ :=
    toInt32_eq_self (by omega) (by omega)
  rw [htr, hv32]
  by_cases hcase : s.batchProgress = total
  · have hwnil : s.writes = [] := by
      by_contra hne
      have := (hinv.writes_ne hne).2
      omega
    have hslot0 : s.slot = 0 := (hinv.writes_nil hwnil).2
    have hfl_one : ⌊(s.batchProgress : ℚ) / (total : ℚ)⌋ = 1 := by
      rw [hcase, div_self (ne_of_gt htq)]
      exact Int.floor_one
    rw [hfl_one, hslot0]
    norm_num
  · have hlt : (s.batchProgress : ℚ) / (total : ℚ) < 1 := by
      rw [div_lt_one htq]
      exact_mod_cast (by omega : s.batchProgress < total)
    have hfl_eq : ⌊(s.batchProgress : ℚ) / (total : ℚ)⌋ = 0 :=
      Int.floor_eq_zero_iff.mpr ⟨hfrac0, hlt⟩
    rw [hfl_eq]
    refine ⟨by omega, by omega, ?_⟩
    intro hsmall
    have hwnil : s.writes = [] := by
      by_contra hne
      have := (hinv.writes_ne hne).1
      omega
    have := (hinv.writes_nil hwnil).1
    omega

/-- C9: for every chunk and any behaviour of the host primitives, the
worker's progress slot starts at zero and the successive values it stores
there form a non-decreasing sequence: every write leaves the slot at least
as large as its previous value. -/
theorem verifyChunk_writes_monotone (c : Codec) (start stop dp : ℕ) :
    List.Chain' (· ≤ ·) (0 :: (verifyChunk c start stop dp).1.writes) := by
  obtain ⟨hchain, hinvf⟩ := verifyLoop_inv c dp start (stop - start) (stop - start) start
    { slot := 0, batchProgress := 0, writes := [], checked := [] }
    (le_refl start) (by omega) (loopInv_init start (stop - start))
  rcases hres : verifyLoop c dp start (stop - start) (List.range' start (stop - start))
      { slot := 0, batchProgress := 0, writes := [], checked := [] } with ⟨s, o⟩
  rw [hres] at hchain hinvf
  cases o with
  | some oc =>
    simp only [verifyChunk, hres]
    exact hchain
  | none =>
    have hinv : LoopInv start (stop - start) (start + (stop - start)) s := hinvf rfl
    by_cases hbp : 0 < s.batchProgress
    · simp only [verifyChunk, hres, if_pos hbp]
      have hflush := (flush_val_bounds start (stop - start) s hinv hbp).1
      have hchain2 : List.Chain' (· ≤ ·) (((0 : ℤ) :: s.writes) ++
          [toInt32 (jsTrunc ((s.slot : ℚ) + (s.batchProgress : ℚ) / ((stop - start : ℕ) : ℚ)))]) :=
        chain_append_last s.writes 0 _ hchain (by rw [← hinv.slot_last]; exact hflush)
      simpa using hchain2
    · simp only [verifyChunk, hres, if_neg hbp]
      exact hchain

/-- C10: a non-empty chunk on which every check passes ends `Completed`,
and the final value in its progress slot is strictly below the full-scale
1,000,000 — the closing flush adds the unscaled fraction
`batchProgress / totalInChunk`, which the integer store truncates — and a
chunk smaller than one batch ends with its slot at most 1. -/
theorem verifyChunk_completed_slot (c : Codec) (start stop dp : ℕ)
    (h0 : 0 < stop - start)
    (hpass : ∀ i ∈ List.range' start (stop - start), mismatchAt c dp i = false) :
    (verifyChunk c start stop dp).2 = Outcome.completed ∧
      (verifyChunk c start stop dp).1.slot < 1000000 ∧
      (stop - start < batchSize → (verifyChunk c start stop dp).1.slot ≤ 1) := by
  obtain ⟨s', h1, _⟩ := verifyLoop_pass_prefix c dp start (stop - start)
    (List.range' start (stop - start)) []
    { slot := 0, batchProgress := 0, writes := [], checked := [] } hpass
  rw [List.append_nil] at h1
  have hres : verifyLoop c dp start (stop - start) (List.range' start (stop - start))
      { slot := 0, batchProgress := 0, writes := [], checked := [] } = (s', none) := h1
  obtain ⟨hchain, hinvf⟩ := verifyLoop_inv c dp start (stop - start) (stop - start) start
    { slot := 0, batchProgress := 0, writes := [], checked := [] }
    (le_refl start) (by omega) (loopInv_init start (stop - start))
  rw [hres] at hinvf
  have hinv : LoopInv start (stop - start) (start + (stop - start)) s' := hinvf rfl
  by_cases hbp : 0 < s'.batchProgress
  · simp only [verifyChunk, hres, if_pos hbp]
    obtain ⟨_, hlt, hsmall⟩ := flush_val_bounds start (stop - start) s' hinv hbp
    exact ⟨by trivial, hlt, hsmall⟩
  · simp only [verifyChunk, hres, if_neg hbp]
    refine ⟨by trivial, by have := hinv.slot_le; omega, ?_⟩
    intro hsz
    have hwnil : s'.writes = [] := by
      by_contra hne
      have := (hinv.writes_ne hne).1
      omega
    have := (hinv.writes_nil hwnil).1
    omega

/-- Under the ideal lossless primitives no index ever mismatches. -/
theorem exact_no_mismatch (dp i : ℕ) : mismatchAt exactCodec dp i = false := by
  simp [mismatchAt, serializedAt, deserializedAt, exactCodec]

/-- Witness for C10 on the chunk `[0, 3)` with the ideal primitives. -/
theorem verifyChunk_completed_slot_witness :
    0 < 3 - 0 ∧
      ((verifyChunk exactCodec 0 3 1).2 = Outcome.completed ∧
        (verifyChunk exactCodec 0 3 1).1.slot < 1000000 ∧
        (3 - 0 < batchSize → (verifyChunk exactCodec 0 3 1).1.slot ≤ 1)) :=
  ⟨by decide, verifyChunk_completed_slot exactCodec 0 3 1 (by decide)
    (fun i _ => exact_no_mismatch 1 i)⟩

/-- Exact characterization of the loop under the ideal primitives: starting
after `p` processed indices, processing `n` more leaves the canonical state
of `p + n` processed indices, with the write list given by `batchWrites`. -/
theorem verifyLoop_exact (dp start total : ℕ) :
    ∀ (n p : ℕ),
      verifyLoop exactCodec dp start total (List.range' (start + p) n)
        { slot := (batchWrites start total p).getLastD 0,
          batchProgress := p % batchSize,
          writes := batchWrites start total p,
          checked := List.range' start p } =
      ({ slot := (batchWrites start total (p + n)).getLastD 0,
         batchProgress := (p + n) % batchSize,
         writes := batchWrites start total (p + n),
         checked := List.range' start (p + n) }, none) := by
  intro n
  induction n with
  | zero =>
    intro p
    simp [verifyLoop]
  | succ n ih =>
    intro p
    rw [List.range'_succ]
    have hmf : mismatchAt exactCodec dp (start + p) = false := exact_no_mismatch dp (start + p)
    have hB : 0 < batchSize := by norm_num [batchSize]
    have hdm := Nat.div_add_mod p batchSize
    have hmlt : p % batchSize < batchSize := Nat.mod_lt p hB
    have hrw : p + (n + 1) = (p + 1) + n := by omega
    rw [hrw]
    have hchk : List.range' start p ++ [start + p] = List.range' start (p + 1) := by
      rw [List.range'_concat, one_mul]
    by_cases hb : p % batchSize + 1 = batchSize
    · -- this index completes a batch: a write happens
      have hmul : p + 1 = batchSize * (p / batchSize + 1) := by
        have hd : batchSize * (p / batchSize + 1) = batchSize * (p / batchSize) + batchSize := by
          ring
        omega
      have hdiv1 : (p + 1) / batchSize = p / batchSize + 1 := by
        rw [hmul, Nat.mul_div_cancel_left _ hB]
      have hmod1 : (p + 1) % batchSize = 0 := by
        rw [hmul, Nat.mul_mod_right]
      have hidx : start + (p / batchSize + 1) * batchSize - 1 = start + p := by
        have : (p / batchSize + 1) * batchSize = batchSize * (p / batchSize + 1) := by ring
        omega
      have hbw : batchWrites start total (p + 1) =
          batchWrites start total p ++ [toInt32 (wvI start total (start + p))] := by
        unfold batchWrites
        rw [hdiv1, List.range_succ, List.map_append, List.map_singleton, hidx]
      simp only [verifyLoop, verifyStep_pass_full exactCodec dp start total (start + p)
        { slot := (batchWrites start total p).getLastD 0,
          batchProgress := p % batchSize,
          writes := batchWrites start total p,
          checked := List.range' start p } hmf hb]
      have hstep := ih (p + 1)
      rw [hbw, List.getLastD_concat, hmod1, ← hchk] at hstep
      exact hstep
    · -- mid-batch index
      have hmod1 : (p + 1) % batchSize = p % batchSize + 1 := by
        have h1 : (p + 1) % batchSize = (p % batchSize + 1) % batchSize := by
          conv_lhs => rw [← hdm]
          rw [Nat.add_assoc, Nat.mul_add_mod]
        rw [h1, Nat.mod_eq_of_lt (by omega)]
      have hdvd : ¬ batchSize ∣ (p + 1) := by
        intro hcon
        have := Nat.mod_eq_zero_of_dvd hcon
        omega
      have hdiv1 : (p + 1) / batchSize = p / batchSize := by
        rw [Nat.succ_div, if_neg hdvd]
        omega
      have hbw : batchWrites start total (p + 1) = batchWrites start total p := by
        unfold batchWrites
        rw [hdiv1]
      simp only [verifyLoop, verifyStep_pass_partial exactCodec dp start total (start + p)
        { slot := (batchWrites start total p).getLastD 0,
          batchProgress := p % batchSize,
          writes := batchWrites start total p,
          checked := List.range' start p } hmf hb]
      have hstep := ih (p + 1)
      rw [hbw, hmod1, ← hchk] at hstep
      exact hstep

/-- A full worker run under the ideal primitives: the batch writes of
`batchWrites`, the closing flush when a partial batch remains, and the
completed outcome. -/
theorem verifyChunk_exact_run (start stop dp : ℕ) :
    verifyChunk exactCodec start stop dp =
      (exactFinal start (stop - start), Outcome.completed) := by
  have h0 := verifyLoop_exact dp start (stop - start) (stop - start) 0
  have hbw0 : batchWrites start (stop - start) 0 = [] := by
    unfold batchWrites
    rw [Nat.zero_div, List.range_zero, List.map_nil]
  rw [hbw0] at h0
  simp only [Nat.add_zero, Nat.zero_add, Nat.zero_mod, List.getLastD_nil] at h0
  have hrange0 : List.range' start 0 = [] := rfl
  rw [hrange0] at h0
  simp only [verifyChunk, h0]
  unfold exactFinal
  by_cases hf : 0 < (stop - start) % batchSize
  · rw [if_pos hf, if_pos hf]
    rfl
  · rw [if_neg hf, if_neg hf]

/-- C8 (amended): under the ideal primitives, after every batch of
10,000,000 consecutive successful checks the worker stores into its slot
`floor((i - start) / totalInChunk * 1000000)` where `i` is the index of the
batch's last element — that is, with `(indexesDoneInChunk - 1)` in the
numerator, one less than the done count: the `k`-th batch write (counting
from 0) is `floor(((k+1) * batchSize - 1) / totalInChunk * 1000000)`. -/
theorem verifyChunk_batch_write_values (start stop dp : ℕ) :
    (verifyChunk exactCodec start stop dp).1.writes.take ((stop - start) / batchSize) =
      (List.range ((stop - start) / batchSize)).map (fun k =>
        toInt32 ⌊(((k + 1) * batchSize - 1 : ℕ) : ℚ) /
          ((stop - start : ℕ) : ℚ) * 1000000⌋) := by
  rw [verifyChunk_exact_run]
  have hlen : (batchWrites start (stop - start) (stop - start)).length =
      (stop - start) / batchSize := by
    simp [batchWrites]
  have hmain : batchWrites start (stop - start) (stop - start) =
      (List.range ((stop - start) / batchSize)).map (fun k =>
        toInt32 ⌊(((k + 1) * batchSize - 1 : ℕ) : ℚ) /
          ((stop - start : ℕ) : ℚ) * 1000000⌋) := by
    unfold batchWrites
    apply List.map_congr_left
    intro k _
    congr 1
    unfold wvI
    congr 1
    have hB : 0 < batchSize := by norm_num [batchSize]
    have hpos : 0 < (k + 1) * batchSize := Nat.mul_pos (by omega) hB
    have h1 : start + (k + 1) * batchSize - 1 = start + ((k + 1) * batchSize - 1) := by
      omega
    rw [h1]
    push_cast [Nat.cast_sub (by omega : 1 ≤ (k + 1) * batchSize)]
    ring_nf
  unfold exactFinal
  by_cases hf : 0 < (stop - start) % batchSize
  · rw [if_pos hf]
    show (batchWrites start (stop - start) (stop - start) ++
        [flushVal start (stop - start)]).take ((stop - start) / batchSize) = _
    rw [List.take_left' hlen, hmain]
  · rw [if_neg hf]
    show (batchWrites start (stop - start) (stop - start)).take
        ((stop - start) / batchSize) = _
    rw [List.take_of_length_le (le_of_eq hlen)]
    exact hmain

/-- C8 counterexample: take the chunk `[0, 2 * batchSize)` with all checks
passing.  After the first batch of 10,000,000 consecutive successes the
number of indices done is `batchSize`, so the claim predicts the write
`floor(batchSize / totalInChunk * 1000000) = 500000`; the worker instead
stores 499999, because the source uses `i - start` — the done count minus
one — in the numerator. -/
theorem verifyChunk_progress_write_counterexample :
    (verifyChunk exactCodec 0 (2 * batchSize) DECIMAL_PLACES).1.writes.head? =
        some 499999 ∧
      ⌊((batchSize : ℕ) : ℚ) / ((2 * batchSize : ℕ) : ℚ) * 1000000⌋ = 500000 ∧
      (499999 : ℤ) ≠ 500000 := by
  refine ⟨?_, ?_, by decide⟩
  · rw [verifyChunk_exact_run]
    rw [show 2 * batchSize - 0 = 2 * batchSize by omega]
    unfold exactFinal
    rw [if_neg (by simp [Nat.mul_mod_left])]
    unfold batchWrites
    rw [show 2 * batchSize / batchSize = 2 from
      Nat.mul_div_cancel 2 (by norm_num [batchSize])]
    rw [show List.range 2 = [0, 1] from rfl]
    simp only [List.map_cons, List.map_nil, List.head?_cons]
    congr 1
    unfold wvI toInt32
    norm_num [batchSize]
  · norm_num [batchSize]
